import Mathlib

/-
Verification of the 1D interpolation subsystem of the iwutil repository.

Two source variants are embedded:
  - the class-hierarchy variant, src/iwutil/interpolate.py
    (Interpolator1D base class with PchipInterpolator, LinearInterpolator,
    CubicSplineInterpolator subclasses), and
  - the method-string variant, src/iwutil/interpolation.py
    (a single Interpolator1D class with a method tag).

Real numbers are modelled as rationals extended with an explicit NaN, with
numpy comparison semantics (every comparison involving NaN is false, and
np.maximum / np.minimum propagate NaN).  The external numeric primitives
(scipy.interpolate.PchipInterpolator and scipy.interpolate.make_interp_spline)
are treated as the spec treats them: abstract evaluable objects; only their
construction-time validation is modelled, from the spec's kernel table
(section 4.4) and collaborator contract (section 6).
-/

namespace IWUtil

/-- Decidable equality of Except values, used to evaluate the embedding on
concrete inputs. -/
instance exceptDecEq {ε α : Type} [DecidableEq ε] [DecidableEq α] :
    DecidableEq (Except ε α) := fun a b =>
  match a, b with
  | .ok a, .ok b =>
    if h : a = b then .isTrue (by rw [h]) else .isFalse (by simp [h])
  | .ok _, .error _ => .isFalse (by simp)
  | .error _, .ok _ => .isFalse (by simp)
  | .error e, .error f =>
    if h : e = f then .isTrue (by rw [h]) else .isFalse (by simp [h])

/-- Scalar value of a numpy float array: NaN or a finite number
(modelled as a rational). -/
inductive Val where
  | nan : Val
  | num : ℚ → Val
deriving DecidableEq

/-- Strict less-than with numpy semantics: any comparison involving NaN
is false. -/
def Val.ltb : Val → Val → Bool
  | .num a, .num b => decide (a < b)
  | _, _ => false

/-- Strict greater-than with numpy semantics. -/
def Val.gtb (a b : Val) : Bool := Val.ltb b a

/-- Binary np.maximum: propagates NaN. -/
def Val.npMax : Val → Val → Val
  | .num a, .num b => .num (max a b)
  | _, _ => .nan

/-- Binary np.minimum: propagates NaN. -/
def Val.npMin : Val → Val → Val
  | .num a, .num b => .num (min a b)
  | _, _ => .nan

/-- Whether a value is NaN. -/
def Val.isNan : Val → Bool
  | .nan => true
  | .num _ => false

/-- Whether a list of values contains a NaN entry. -/
def hasNan (l : List Val) : Bool := l.any Val.isNan

/-- Reduction x.min() of a numpy array: NaN-propagating minimum of the
entries.  numpy raises on an empty array; callers in the embedded code
guard the empty case, and the default result here is NaN. -/
def npMinL : List Val → Val
  | [] => .nan
  | v :: rest => rest.foldl Val.npMin v

/-- Reduction x.max() of a numpy array: NaN-propagating maximum of the
entries; same empty-array convention as npMinL. -/
def npMaxL : List Val → Val
  | [] => .nan
  | v :: rest => rest.foldl Val.npMax v

/-- Tail of the monotonic mask: given the running maximum m of the entries
already seen, produce the mask bits of the remaining entries.  Each bit is
cummax[i] > cummax[i-1] for the running maximum cummax computed with the
NaN-propagating np.maximum. -/
def maskFrom (m : Val) : List Val → List Bool
  | [] => []
  | v :: rest =>
    let m2 := Val.npMax m v
    Val.gtb m2 m :: maskFrom m2 rest

/-- Static method Interpolator1D._get_monotonic_mask
(src/iwutil/interpolate.py lines 120-146, and identically
src/iwutil/interpolation.py lines 115-141):
cummax = np.maximum.accumulate(x); mask[0] = True;
mask[1:] = cummax[1:] > cummax[:-1].
The Python code raises on an empty input (mask[0] assignment); it is only
ever applied to arrays of length at least 2, and the empty case here is []. -/
def getMonotonicMask : List Val → List Bool
  | [] => []
  | v :: rest => true :: maskFrom v rest

/-- Boolean-mask indexing x[mask] of numpy: keep exactly the entries whose
mask bit is true. -/
def applyMask {α : Type} : List α → List Bool → List α
  | [], _ => []
  | _, [] => []
  | a :: l, b :: bs => if b then a :: applyMask l bs else applyMask l bs

/-- Boolean test that a list of values is strictly increasing in the numpy
order (each element strictly greater than its predecessor; false whenever a
needed comparison involves NaN). -/
def strictIncB : List Val → Bool
  | [] => true
  | [_] => true
  | a :: b :: rest => Val.ltb a b && strictIncB (b :: rest)

/-- A numpy array argument: its number of dimensions and its entries.
For ndim different from 1 only the length of data (the leading axis) is
ever consulted before the rank check rejects the array. -/
structure Arr where
  ndim : ℕ
  data : List Val
deriving DecidableEq

/-- Reversal of an array argument (reverses the leading axis). -/
def Arr.rev (a : Arr) : Arr := ⟨a.ndim, a.data.reverse⟩

/-- The ValueError conditions raised by construction, one constructor per
distinct message raised by the library, plus one for errors raised inside
the external numpy/scipy primitives. -/
inductive Err where
  | invalidMethod
  | invalidFillValue
  | notOneD
  | lengthMismatch
  | tooFewPoints
  | notMonotonic
  | needAtLeast (n : ℕ)
  | primitiveError
deriving DecidableEq

/-- The fill_value argument as passed by the caller: Python None, any
Number (np.nan is a float and hence a Number), the string literal
for extrapolation, or any other (invalid) string. -/
inductive FillArg where
  | unset
  | num (v : Val)
  | extrapolate
  | otherString
deriving DecidableEq

/-- The stored fill_value after defaulting: a numeric value or the
extrapolation token. -/
inductive Fill where
  | val (v : Val)
  | extrapolate
deriving DecidableEq

/-- Defaulting and validation of fill_value
(src/iwutil/interpolate.py lines 37-39 and 221-237, identical in
src/iwutil/interpolation.py lines 44-46 and 279-295): None becomes np.nan;
a Number or the extrapolation token is accepted; any other string is
rejected. -/
def resolveFill : FillArg → Except Err Fill
  | .unset => .ok (.val .nan)
  | .num v => .ok (.val v)
  | .extrapolate => .ok .extrapolate
  | .otherString => .error .invalidFillValue

/-- The extrapolate property: fill_value equals the extrapolation token. -/
def Fill.isExtrapolate : Fill → Bool
  | .extrapolate => true
  | .val _ => false

/-- The numeric value of the stored fill_value; only ever read when not
extrapolating. -/
def Fill.value : Fill → Val
  | .val v => v
  | .extrapolate => .nan

/-- The method argument of the method-string variant: Python None, one of
the three recognized method names, or an unrecognized name. -/
inductive MethodArg where
  | unset
  | pchip
  | linear
  | cubicSpline
  | invalid
deriving DecidableEq

/-- A recognized interpolation method. -/
inductive Method where
  | pchip
  | linear
  | cubicSpline
deriving DecidableEq

/-- Defaulting and validation of the method argument
(src/iwutil/interpolation.py lines 40-42 and 261-277): None becomes pchip;
an unrecognized name is rejected. -/
def resolveMethod : MethodArg → Except Err Method
  | .unset => .ok .pchip
  | .pchip => .ok .pchip
  | .linear => .ok .linear
  | .cubicSpline => .ok .cubicSpline
  | .invalid => .error .invalidMethod

/-- Boundary condition hint accepted by the degree-3 spline primitive. -/
inductive BC where
  | natural
deriving DecidableEq

/-- An evaluable object produced by one of the external interpolation
primitives, recording which primitive was invoked and with which data and
options. -/
inductive Kernel where
  | pchip (x y : List Val) (extrapolate : Bool)
  | spline (x y : List Val) (k : ℕ) (bc : Option BC)
deriving DecidableEq

/-- Modelled from the spec: the external PCHIP primitive
(scipy.interpolate.PchipInterpolator), treated by the spec as a trusted
collaborator (sections 4.4 and 6).  It needs at least 2 data points (spec
kernel table) and only finite data (scipy validates input finiteness and
raises ValueError on NaN); given those it produces an evaluable object
recording the data and the native extrapolate flag. -/
def scipyPchip (x y : List Val) (extrapolate : Bool) : Except Err Kernel :=
  if hasNan x || hasNan y then .error .primitiveError
  else if x.length < 2 then .error .primitiveError
  else .ok (.pchip x y extrapolate)

/-- Modelled from the spec: the external degree-k spline primitive
(scipy.interpolate.make_interp_spline), a trusted collaborator (sections
4.4 and 6).  It needs more data points than the degree (spec: len(x) >
degree); only the degree-3 primitive has a selectable boundary condition
(spec kernel table: the Linear row has none), so passing one together with
k = 1 is rejected (scipy raises ValueError: too much info for k = 1,
bc_type can only be None); data must be finite (scipy check_finite). -/
def makeInterpSpline (x y : List Val) (k : ℕ) (bc : Option BC) : Except Err Kernel :=
  if k = 1 && bc.isSome then .error .primitiveError
  else if hasNan x || hasNan y then .error .primitiveError
  else if x.length < k + 1 then .error .primitiveError
  else .ok (.spline x y k bc)

/-- The shared data-cleaning part of Interpolator1D.__init__
(src/iwutil/interpolate.py lines 44-68; textually identical in
src/iwutil/interpolation.py lines 51-75): copy both inputs to fresh
np.array buffers, rank check, equal-length check, minimum-length check,
endpoint-based reversal, monotonic mask with optional filtering.
Returns the cleaned x and y. -/
def cleanXY (x y : Arr) (forceMonotonic : Bool) : Except Err (List Val × List Val) :=
  if x.ndim ≠ 1 ∨ y.ndim ≠ 1 then .error .notOneD
  else if x.data.length ≠ y.data.length then .error .lengthMismatch
  else if x.data.length < 2 then .error .tooFewPoints
  else
    let p :=
      if Val.gtb (x.data.headD .nan) (x.data.getLastD .nan) then
        (x.data.reverse, y.data.reverse)
      else (x.data, y.data)
    let mask := getMonotonicMask p.1
    if mask.all (fun b => b) then .ok p
    else if forceMonotonic then .ok (applyMask p.1 mask, applyMask p.2 mask)
    else .error .notMonotonic

/-- A constructed interpolator of the class-hierarchy variant
(src/iwutil/interpolate.py): the cleaned data, the stored fill_value and
the evaluable kernel, as held in the instance slots. -/
structure Interp where
  x : List Val
  y : List Val
  fill : Fill
  kernel : Kernel
deriving DecidableEq

/-- A constructed interpolator of the method-string variant
(src/iwutil/interpolation.py), which additionally stores the method tag. -/
structure InterpM where
  x : List Val
  y : List Val
  method : Method
  fill : Fill
  kernel : Kernel
deriving DecidableEq

/-- The three concrete subclasses of the class-hierarchy variant. -/
inductive Variant where
  | pchipClass
  | linearClass
  | cubicClass
deriving DecidableEq

/-- The _create_interpolator overrides of the class-hierarchy variant
(src/iwutil/interpolate.py lines 251-262, 270-279 and 318-333):
PchipInterpolator passes the native extrapolate flag; LinearInterpolator
calls the spline primitive with k = 1 and no boundary condition;
CubicSplineInterpolator calls it with k = 3 and the natural boundary
condition exactly when extrapolating. -/
def createInterpolator (v : Variant) (x y : List Val) (extrapolate : Bool) :
    Except Err Kernel :=
  match v with
  | .pchipClass => scipyPchip x y extrapolate
  | .linearClass => makeInterpSpline x y 1 none
  | .cubicClass =>
    makeInterpSpline x y 3 (if extrapolate then some .natural else none)

/-- Interpolator1D.__init__ of the class-hierarchy variant
(src/iwutil/interpolate.py lines 14-73), including the
CubicSplineInterpolator.__init__ raw-length pre-check (lines 287-316),
which runs on the raw input before the base constructor. -/
def interpolateInit (v : Variant) (x y : Arr) (fillValue : FillArg)
    (forceMonotonic : Option Bool) : Except Err Interp :=
  if v = .cubicClass ∧ x.data.length < 4 then .error (.needAtLeast 4)
  else
    match resolveFill fillValue with
    | .error e => .error e
    | .ok fill =>
      match cleanXY x y (forceMonotonic.getD false) with
      | .error e => .error e
      | .ok (cx, cy) =>
        match createInterpolator v cx cy fill.isExtrapolate with
        | .error e => .error e
        | .ok k => .ok ⟨cx, cy, fill, k⟩

/-- Interpolator1D._get_interpolator of the method-string variant
(src/iwutil/interpolation.py lines 233-259) together with
_get_pchip_interpolator and _get_spline_interpolator (lines 185-231): the
pchip method calls the PCHIP primitive directly; the spline methods first
check len(x) > k on the cleaned data, then call the spline primitive with
the natural boundary condition exactly when extrapolating (for both k = 1
and k = 3). -/
def getInterpolator (m : Method) (x y : List Val) (extrapolate : Bool) :
    Except Err Kernel :=
  match m with
  | .pchip => scipyPchip x y extrapolate
  | .linear =>
    if x.length ≤ 1 then .error (.needAtLeast 2)
    else makeInterpSpline x y 1 (if extrapolate then some .natural else none)
  | .cubicSpline =>
    if x.length ≤ 3 then .error (.needAtLeast 4)
    else makeInterpSpline x y 3 (if extrapolate then some .natural else none)

/-- Interpolator1D.__init__ of the method-string variant
(src/iwutil/interpolation.py lines 14-81): method check, fill-value check,
shared data cleaning, then kernel selection and construction. -/
def interpolationInit (method : MethodArg) (x y : Arr) (fillValue : FillArg)
    (forceMonotonic : Option Bool) : Except Err InterpM :=
  match resolveMethod method with
  | .error e => .error e
  | .ok m =>
    match resolveFill fillValue with
    | .error e => .error e
    | .ok fill =>
      match cleanXY x y (forceMonotonic.getD false) with
      | .error e => .error e
      | .ok (cx, cy) =>
        match getInterpolator m cx cy fill.isExtrapolate with
        | .error e => .error e
        | .ok k => .ok ⟨cx, cy, m, fill, k⟩

/-- A query passed to __call__: a Python scalar or a 1-D array. -/
inductive Query where
  | scalar (v : Val)
  | arr (vs : List Val)
deriving DecidableEq

/-- The result of __call__: a 0-dimensional (scalar-shaped) array or a 1-D
array. -/
inductive Out where
  | scalar (v : Val)
  | arr (vs : List Val)
deriving DecidableEq

/-- Whether an output is a (1-dimensional) array rather than scalar-shaped. -/
def Out.isArr : Out → Bool
  | .scalar _ => false
  | .arr _ => true

/-- np.atleast_1d: promote a scalar to a length-1 array, pass arrays
through. -/
def atleast1d : Query → List Val
  | .scalar v => [v]
  | .arr vs => vs

/-- Elementwise overwrite out[mask] = fill for the out-of-range mask
mask = (xi < x_min) | (xi > x_max): each output entry whose paired query
value is strictly below x_min or strictly above x_max becomes the fill
value. -/
def overwriteOutside (out xi : List Val) (xmin xmax fv : Val) : List Val :=
  (out.zip xi).map fun p =>
    if Val.ltb p.2 xmin || Val.gtb p.2 xmax then fv else p.1

/-- Interpolator1D._apply_fill_value of the class-hierarchy variant
(src/iwutil/interpolate.py lines 94-118), with the instance state passed
explicitly: no-op when extrapolating; otherwise numpy raises on the min of
an empty query (modelled as primitiveError); otherwise the overwrite runs
only under the guard xi.min() < x_min or xi.max() > x_max, computed with
NaN-propagating reductions on the original query values. -/
def applyFillValueFn (extrapolate : Bool) (fillVal : Val) (x : List Val)
    (out xi : List Val) : Except Err (List Val) :=
  if extrapolate then .ok out
  else if xi.isEmpty then .error .primitiveError
  else
    let xmin := npMinL x
    let xmax := npMaxL x
    if Val.ltb (npMinL xi) xmin || Val.gtb (npMaxL xi) xmax then
      .ok (overwriteOutside out xi xmin xmax fillVal)
    else .ok out

/-- Interpolator1D.__call__ of the class-hierarchy variant
(src/iwutil/interpolate.py lines 75-92): promote the query with
np.atleast_1d, evaluate the kernel entrywise through the external
evaluation primitive K, then apply the fill value.  K stands for the
abstract evaluable object's pointwise evaluation. -/
def interpolateCall (K : Kernel → Val → Val) (i : Interp) (q : Query) :
    Except Err Out :=
  let xi := atleast1d q
  let out := xi.map (K i.kernel)
  (applyFillValueFn i.fill.isExtrapolate i.fill.value i.x out xi).map .arr

/-- The fill-overwrite step inlined in Interpolator1D.__call__ of the
method-string variant (src/iwutil/interpolation.py lines 99-107), array
case: build the out-of-range mask from the original query values and, when
any bit is set, overwrite the masked entries with the fill value. -/
def fillOverwriteArr (fv : Val) (x : List Val) (out xi : List Val) : List Val :=
  let xmin := npMinL x
  let xmax := npMaxL x
  if xi.any (fun v => Val.ltb v xmin || Val.gtb v xmax) then
    overwriteOutside out xi xmin xmax fv
  else out

/-- Interpolator1D.__call__ of the method-string variant
(src/iwutil/interpolation.py lines 83-107): no scalar promotion happens, so
a scalar query is evaluated to a 0-dimensional (scalar-shaped) output, to
which the boolean-scalar mask overwrite applies; an array query gets the
elementwise mask overwrite. -/
def interpolationCall (K : Kernel → Val → Val) (i : InterpM) (q : Query) : Out :=
  match q with
  | .scalar v =>
    let o := K i.kernel v
    if i.fill.isExtrapolate then .scalar o
    else if Val.ltb v (npMinL i.x) || Val.gtb v (npMaxL i.x) then
      .scalar i.fill.value
    else .scalar o
  | .arr vs =>
    let out := vs.map (K i.kernel)
    if i.fill.isExtrapolate then .arr out
    else .arr (fillOverwriteArr i.fill.value i.x out vs)

/-- A store of numpy buffers, indexed by allocation order; used to state
that construction never mutates caller-owned buffers. -/
abbrev Heap := List (List Val)

/-- Contents of the buffer with the given identifier. -/
def Heap.read (h : Heap) (i : ℕ) : List Val := h.getD i []

/-- Allocate a fresh buffer holding the given contents, returning its
identifier. -/
def Heap.alloc (h : Heap) (v : List Val) : ℕ × Heap := (h.length, h ++ [v])

/-- In-place write of a whole buffer (the slice assignment x[:] = ...). -/
def Heap.write (h : Heap) (i : ℕ) (v : List Val) : Heap := h.set i v

/-- A caller-owned array argument: its rank and the identifier of its
buffer in the store. -/
structure Ref where
  ndim : ℕ
  id : ℕ
deriving DecidableEq

/-- Store-level rendering of the shared data-cleaning part of
Interpolator1D.__init__ (src/iwutil/interpolate.py lines 44-68, identical
in src/iwutil/interpolation.py lines 51-75), keeping buffer identity
explicit: x = np.array(x) and y = np.array(y) allocate fresh copies; the
rank, length and minimum-length checks read the copies; the endpoint
reversal x[:] = x[::-1]; y[:] = y[::-1] writes in place to the copies
only; the monotonic filtering x = x[mask]; y = y[mask] allocates fresh
filtered buffers.  Returns the identifiers of the cleaned buffers and the
final store. -/
def heapCleanXY (h : Heap) (x y : Ref) (forceMonotonic : Bool) :
    Except Err (ℕ × ℕ) × Heap :=
  let a1 := h.alloc (h.read x.id)
  let xid := a1.1
  let h1 := a1.2
  let a2 := h1.alloc (h1.read y.id)
  let yid := a2.1
  let h2 := a2.2
  if x.ndim ≠ 1 ∨ y.ndim ≠ 1 then (.error .notOneD, h2)
  else if (h2.read xid).length ≠ (h2.read yid).length then
    (.error .lengthMismatch, h2)
  else if (h2.read xid).length < 2 then (.error .tooFewPoints, h2)
  else
    let xd := h2.read xid
    let h3 :=
      if Val.gtb (xd.headD .nan) (xd.getLastD .nan) then
        (h2.write xid xd.reverse).write yid (h2.read yid).reverse
      else h2
    let mask := getMonotonicMask (h3.read xid)
    if mask.all (fun b => b) then (.ok (xid, yid), h3)
    else if forceMonotonic then
      let a3 := h3.alloc (applyMask (h3.read xid) mask)
      let xid2 := a3.1
      let h4 := a3.2
      let a4 := h4.alloc (applyMask (h4.read yid) mask)
      (.ok (xid2, a4.1), a4.2)
    else (.error .notMonotonic, h3)

/-- Store-level rendering of Interpolator1D.__init__ of the
class-hierarchy variant (src/iwutil/interpolate.py lines 14-73 together
with the CubicSplineInterpolator pre-check, lines 287-316): the validation
steps before the array work are pure, the array work runs through
heapCleanXY, and kernel construction only reads the cleaned buffers. -/
def heapInterpolateInit (v : Variant) (h : Heap) (x y : Ref)
    (fillValue : FillArg) (forceMonotonic : Option Bool) :
    Except Err Interp × Heap :=
  if v = .cubicClass ∧ (h.read x.id).length < 4 then
    (.error (.needAtLeast 4), h)
  else
    match resolveFill fillValue with
    | .error e => (.error e, h)
    | .ok fill =>
      match heapCleanXY h x y (forceMonotonic.getD false) with
      | (.error e, h2) => (.error e, h2)
      | (.ok (cxid, cyid), h2) =>
        match createInterpolator v (h2.read cxid) (h2.read cyid)
            fill.isExtrapolate with
        | .error e => (.error e, h2)
        | .ok k => (.ok ⟨h2.read cxid, h2.read cyid, fill, k⟩, h2)

/-- Store-level rendering of Interpolator1D.__init__ of the method-string
variant (src/iwutil/interpolation.py lines 14-81). -/
def heapInterpolationInit (method : MethodArg) (h : Heap) (x y : Ref)
    (fillValue : FillArg) (forceMonotonic : Option Bool) :
    Except Err InterpM × Heap :=
  match resolveMethod method with
  | .error e => (.error e, h)
  | .ok m =>
    match resolveFill fillValue with
    | .error e => (.error e, h)
    | .ok fill =>
      match heapCleanXY h x y (forceMonotonic.getD false) with
      | (.error e, h2) => (.error e, h2)
      | (.ok (cxid, cyid), h2) =>
        match getInterpolator m (h2.read cxid) (h2.read cyid)
            fill.isExtrapolate with
        | .error e => (.error e, h2)
        | .ok k => (.ok ⟨h2.read cxid, h2.read cyid, m, fill, k⟩, h2)

/-- The method tag of the method-string variant corresponding to each
subclass of the class-hierarchy variant. -/
def Variant.toMethodArg : Variant → MethodArg
  | .pchipClass => .pchip
  | .linearClass => .linear
  | .cubicClass => .cubicSpline

/-- The resolved method corresponding to each subclass of the
class-hierarchy variant. -/
def Variant.toMethod : Variant → Method
  | .pchipClass => .pchip
  | .linearClass => .linear
  | .cubicClass => .cubicSpline

/-- Whether an Except value is a success. -/
def exceptIsOk {ε α : Type} : Except ε α → Bool
  | .ok _ => true
  | .error _ => false

/-- A kernel evaluation primitive used to instantiate counterexamples: the
evaluable object that is constantly zero (admissible for the abstract
primitives, whose pointwise behavior the spec leaves to scipy). -/
def constZeroEval : Kernel → Val → Val := fun _ _ => Val.num 0

lemma maskFrom_length (l : List Val) : ∀ m, (maskFrom m l).length = l.length := by
  induction l with
  | nil => intro m; rfl
  | cons v rest ih => intro m; simp [maskFrom, ih]

lemma getMonotonicMask_length (l : List Val) :
    (getMonotonicMask l).length = l.length := by
  cases l with
  | nil => rfl
  | cons v rest => simp [getMonotonicMask, maskFrom_length]

lemma applyMask_length_le {α : Type} (l : List α) :
    ∀ mask, (applyMask l mask).length ≤ l.length := by
  induction l with
  | nil => intro mask; cases mask <;> simp [applyMask]
  | cons a t ih =>
    intro mask
    cases mask with
    | nil => simp [applyMask]
    | cons b bs =>
      cases b with
      | false =>
        simp only [applyMask, if_neg Bool.false_ne_true]
        exact Nat.le_succ_of_le (ih bs)
      | true =>
        simp only [applyMask, if_pos rfl, List.length_cons]
        exact Nat.succ_le_succ (ih bs)

lemma applyMask_length_eq {α β : Type} :
    ∀ (l1 : List α) (l2 : List β) (mask : List Bool), l1.length = l2.length →
      (applyMask l1 mask).length = (applyMask l2 mask).length := by
  intro l1
  induction l1 with
  | nil =>
    intro l2 mask h
    cases l2 with
    | nil => cases mask <;> rfl
    | cons b t => simp at h
  | cons a t ih =>
    intro l2 mask h
    cases l2 with
    | nil => simp at h
    | cons b t2 =>
      have ht : t.length = t2.length := by simpa using h
      cases mask with
      | nil => rfl
      | cons bit bits =>
        cases bit with
        | false => simpa [applyMask] using ih t2 bits ht
        | true => simpa [applyMask] using ih t2 bits ht

lemma ltb_trans {a b c : Val} (h1 : Val.ltb a b = true) (h2 : Val.ltb b c = true) :
    Val.ltb a c = true := by
  cases a <;> cases b <;> cases c <;> simp [Val.ltb] at *
  exact lt_trans h1 h2

lemma gtb_npMax_iff (m v : Val) :
    Val.gtb (Val.npMax m v) m = true ↔ ∃ a b, m = .num a ∧ v = .num b ∧ a < b := by
  cases m with
  | nan => simp [Val.gtb, Val.ltb, Val.npMax]
  | num a =>
    cases v with
    | nan => simp [Val.gtb, Val.ltb, Val.npMax]
    | num b =>
      simp [Val.gtb, Val.ltb, Val.npMax, lt_max_iff]

lemma npMax_num_lt {a b : ℚ} (h : a < b) :
    Val.npMax (.num a) (.num b) = .num b := by
  simp [Val.npMax, max_eq_right h.le]

lemma strictIncB_cons (v : Val) (F : List Val) (hF : strictIncB F = true)
    (hall : ∀ e ∈ F, Val.ltb v e = true) : strictIncB (v :: F) = true := by
  cases F with
  | nil => rfl
  | cons f t =>
    simp only [strictIncB, Bool.and_eq_true]
    exact ⟨hall f (by simp), hF⟩

lemma maskFrom_filtered : ∀ (l : List Val) (m : Val),
    strictIncB (applyMask l (maskFrom m l)) = true
    ∧ ∀ e ∈ applyMask l (maskFrom m l), Val.ltb m e = true := by
  intro l
  induction l with
  | nil => intro m; exact ⟨rfl, by simp [applyMask, maskFrom]⟩
  | cons v t ih =>
    intro m
    by_cases hb : Val.gtb (Val.npMax m v) m = true
    · obtain ⟨a, b, hm, hv, hab⟩ := (gtb_npMax_iff m v).mp hb
      subst hm; subst hv
      have hmax : Val.npMax (.num a) (.num b) = .num b := npMax_num_lt hab
      have hfil : applyMask (Val.num b :: t) (maskFrom (.num a) (Val.num b :: t))
          = Val.num b :: applyMask t (maskFrom (.num b) t) := by
        simp [maskFrom, applyMask, hmax, Val.gtb, Val.ltb, hab]
      rw [hfil]
      obtain ⟨hinc, hgt⟩ := ih (.num b)
      refine ⟨strictIncB_cons _ _ hinc hgt, ?_⟩
      intro e he
      rcases List.mem_cons.mp he with rfl | he2
      · simp [Val.ltb, hab]
      · exact ltb_trans (a := Val.num a) (by simp [Val.ltb, hab]) (hgt e he2)
    · have hfil : applyMask (v :: t) (maskFrom m (v :: t))
          = applyMask t (maskFrom (Val.npMax m v) t) := by
        simp only [maskFrom, applyMask]
        rw [if_neg (by simpa using hb)]
      rw [hfil]
      obtain ⟨hinc, hgt⟩ := ih (Val.npMax m v)
      refine ⟨hinc, ?_⟩
      cases hm2 : Val.npMax m v with
      | nan =>
        rw [hm2] at hgt
        intro e he
        have := hgt e he
        simp [Val.ltb] at this
      | num c =>
        intro e he
        rw [hm2] at hgt
        have hce := hgt e he
        cases m with
        | nan => cases v <;> simp [Val.npMax] at hm2
        | num a =>
          cases v with
          | nan => simp [Val.npMax] at hm2
          | num b =>
            cases e with
            | nan => simp [Val.ltb] at hce
            | num d =>
              simp only [Val.npMax, Val.num.injEq] at hm2
              simp only [Val.ltb, decide_eq_true_eq] at hce ⊢
              calc a ≤ max a b := le_max_left a b
                _ = c := hm2
                _ < d := hce

lemma filtered_strictInc (l : List Val) :
    strictIncB (applyMask l (getMonotonicMask l)) = true := by
  cases l with
  | nil => rfl
  | cons v t =>
    have hfil : applyMask (v :: t) (getMonotonicMask (v :: t))
        = v :: applyMask t (maskFrom v t) := by
      simp [getMonotonicMask, applyMask]
    rw [hfil]
    obtain ⟨hinc, hgt⟩ := maskFrom_filtered t v
    exact strictIncB_cons _ _ hinc hgt

lemma maskFrom_all_iff : ∀ (l : List Val) (m : Val),
    ((maskFrom m l).all fun b => b) = true ↔ strictIncB (m :: l) = true := by
  intro l
  induction l with
  | nil => intro m; simp [maskFrom, strictIncB]
  | cons v t ih =>
    intro m
    constructor
    · intro h
      simp only [maskFrom, List.all_cons, Bool.and_eq_true] at h
      obtain ⟨hb, ht⟩ := h
      obtain ⟨a, b, hm, hv, hab⟩ := (gtb_npMax_iff m v).mp hb
      subst hm; subst hv
      rw [npMax_num_lt hab] at ht
      have hst := (ih (.num b)).mp ht
      simp only [strictIncB, Bool.and_eq_true]
      exact ⟨by simp [Val.ltb, hab], hst⟩
    · intro h
      simp only [strictIncB, Bool.and_eq_true] at h
      obtain ⟨hmv, ht⟩ := h
      cases m with
      | nan => simp [Val.ltb] at hmv
      | num a =>
        cases v with
        | nan => simp [Val.ltb] at hmv
        | num b =>
          simp only [Val.ltb, decide_eq_true_eq] at hmv
          simp only [maskFrom, List.all_cons, Bool.and_eq_true]
          rw [npMax_num_lt hmv]
          refine ⟨by simp [Val.gtb, Val.ltb, hmv], (ih (.num b)).mpr ht⟩

lemma getMonotonicMask_all_iff (l : List Val) :
    ((getMonotonicMask l).all fun b => b) = true ↔ strictIncB l = true := by
  cases l with
  | nil => simp [getMonotonicMask, strictIncB]
  | cons v t =>
    simp only [getMonotonicMask, List.all_cons, Bool.and_eq_true, true_and]
    exact maskFrom_all_iff t v

lemma maskFrom_getD : ∀ (l : List Val) (m : Val) (i : ℕ), i < l.length →
    (maskFrom m l).getD i false
      = Val.gtb ((l.take (i+1)).foldl Val.npMax m) ((l.take i).foldl Val.npMax m) := by
  intro l
  induction l with
  | nil => intro m i h; simp at h
  | cons v t ih =>
    intro m i h
    cases i with
    | zero => rfl
    | succ j =>
      have hj : j < t.length := by simpa using h
      simp only [maskFrom, List.getD_cons_succ]
      rw [ih (Val.npMax m v) j hj]
      rfl

lemma foldl_npMin_lt_iff (t : List Val) : ∀ (a c : ℚ), hasNan t = false →
    (Val.ltb (t.foldl Val.npMin (.num a)) (.num c) = true ↔
      a < c ∨ ∃ v ∈ t, Val.ltb v (.num c) = true) := by
  induction t with
  | nil => intro a c h; simp [Val.ltb]
  | cons w s ih =>
    intro a c h
    cases w with
    | nan => simp [hasNan, Val.isNan] at h
    | num b =>
      have hs : hasNan s = false := by simpa [hasNan, Val.isNan] using h
      show Val.ltb (s.foldl Val.npMin (.num (min a b))) (.num c) = true ↔ _
      rw [ih (min a b) c hs]
      simp only [min_lt_iff, List.mem_cons, Val.ltb, decide_eq_true_eq]
      constructor
      · rintro (⟨h1 | h1⟩ | ⟨v, hv, h2⟩)
        · exact Or.inl h1
        · exact Or.inr ⟨Val.num b, Or.inl rfl, by simpa [Val.ltb] using h1⟩
        · exact Or.inr ⟨v, Or.inr hv, h2⟩
      · rintro (h1 | ⟨v, rfl | hv, h2⟩)
        · exact Or.inl (Or.inl h1)
        · exact Or.inl (Or.inr (by simpa [Val.ltb] using h2))
        · exact Or.inr ⟨v, hv, h2⟩

lemma foldl_npMax_gt_iff (t : List Val) : ∀ (a c : ℚ), hasNan t = false →
    (Val.gtb (t.foldl Val.npMax (.num a)) (.num c) = true ↔
      c < a ∨ ∃ v ∈ t, Val.gtb v (.num c) = true) := by
  induction t with
  | nil => intro a c h; simp [Val.gtb, Val.ltb]
  | cons w s ih =>
    intro a c h
    cases w with
    | nan => simp [hasNan, Val.isNan] at h
    | num b =>
      have hs : hasNan s = false := by simpa [hasNan, Val.isNan] using h
      show Val.gtb (s.foldl Val.npMax (.num (max a b))) (.num c) = true ↔ _
      rw [ih (max a b) c hs]
      simp only [lt_max_iff, List.mem_cons]
      constructor
      · rintro (⟨h1 | h1⟩ | ⟨v, hv, h2⟩)
        · exact Or.inl h1
        · exact Or.inr ⟨Val.num b, Or.inl rfl, by simpa [Val.gtb, Val.ltb] using h1⟩
        · exact Or.inr ⟨v, Or.inr hv, h2⟩
      · rintro (h1 | ⟨v, rfl | hv, h2⟩)
        · exact Or.inl (Or.inl h1)
        · exact Or.inl (Or.inr (by simpa [Val.gtb, Val.ltb] using h2))
        · exact Or.inr ⟨v, hv, h2⟩

lemma foldl_npMin_num : ∀ (t : List Val) (a : ℚ), hasNan t = false →
    ∃ c, t.foldl Val.npMin (.num a) = .num c := by
  intro t
  induction t with
  | nil => intro a h; exact ⟨a, rfl⟩
  | cons w s ih =>
    intro a h
    cases w with
    | nan => simp [hasNan, Val.isNan] at h
    | num b => exact ih (min a b) (by simpa [hasNan, Val.isNan] using h)

lemma foldl_npMax_num : ∀ (t : List Val) (a : ℚ), hasNan t = false →
    ∃ c, t.foldl Val.npMax (.num a) = .num c := by
  intro t
  induction t with
  | nil => intro a h; exact ⟨a, rfl⟩
  | cons w s ih =>
    intro a h
    cases w with
    | nan => simp [hasNan, Val.isNan] at h
    | num b => exact ih (max a b) (by simpa [hasNan, Val.isNan] using h)

lemma npMinL_num (x : List Val) (hne : x ≠ []) (hnan : hasNan x = false) :
    ∃ a, npMinL x = .num a := by
  cases x with
  | nil => exact absurd rfl hne
  | cons w s =>
    cases w with
    | nan => simp [hasNan, Val.isNan] at hnan
    | num b => exact foldl_npMin_num s b (by simpa [hasNan, Val.isNan] using hnan)

lemma npMaxL_num (x : List Val) (hne : x ≠ []) (hnan : hasNan x = false) :
    ∃ a, npMaxL x = .num a := by
  cases x with
  | nil => exact absurd rfl hne
  | cons w s =>
    cases w with
    | nan => simp [hasNan, Val.isNan] at hnan
    | num b => exact foldl_npMax_num s b (by simpa [hasNan, Val.isNan] using hnan)

lemma npMinL_lt_iff (xi : List Val) (c : ℚ) (hne : xi ≠ [])
    (hnan : hasNan xi = false) :
    (Val.ltb (npMinL xi) (.num c) = true ↔
      ∃ v ∈ xi, Val.ltb v (.num c) = true) := by
  cases xi with
  | nil => exact absurd rfl hne
  | cons w s =>
    cases w with
    | nan => simp [hasNan, Val.isNan] at hnan
    | num b =>
      have hs : hasNan s = false := by simpa [hasNan, Val.isNan] using hnan
      show Val.ltb (s.foldl Val.npMin (.num b)) (.num c) = true ↔ _
      rw [foldl_npMin_lt_iff s b c hs]
      simp [Val.ltb]

lemma npMaxL_gt_iff (xi : List Val) (c : ℚ) (hne : xi ≠ [])
    (hnan : hasNan xi = false) :
    (Val.gtb (npMaxL xi) (.num c) = true ↔
      ∃ v ∈ xi, Val.gtb v (.num c) = true) := by
  cases xi with
  | nil => exact absurd rfl hne
  | cons w s =>
    cases w with
    | nan => simp [hasNan, Val.isNan] at hnan
    | num b =>
      have hs : hasNan s = false := by simpa [hasNan, Val.isNan] using hnan
      show Val.gtb (s.foldl Val.npMax (.num b)) (.num c) = true ↔ _
      rw [foldl_npMax_gt_iff s b c hs]
      simp [Val.gtb, Val.ltb]

lemma outGuard_eq_any (x xi : List Val) (hx : x ≠ []) (hxnan : hasNan x = false)
    (hxi : xi ≠ []) (hxinan : hasNan xi = false) :
    (Val.ltb (npMinL xi) (npMinL x) || Val.gtb (npMaxL xi) (npMaxL x))
      = xi.any (fun v => Val.ltb v (npMinL x) || Val.gtb v (npMaxL x)) := by
  obtain ⟨mn, hmn⟩ := npMinL_num x hx hxnan
  obtain ⟨mx, hmx⟩ := npMaxL_num x hx hxnan
  rw [hmn, hmx]
  apply Bool.eq_iff_iff.mpr
  rw [Bool.or_eq_true, npMinL_lt_iff xi mn hxi hxinan,
    npMaxL_gt_iff xi mx hxi hxinan, List.any_eq_true]
  constructor
  · rintro (⟨v, hv, h⟩ | ⟨v, hv, h⟩)
    · exact ⟨v, hv, by simp [h]⟩
    · exact ⟨v, hv, by simp [h]⟩
  · rintro ⟨v, hv, h⟩
    have h2 : Val.ltb v (.num mn) = true ∨ Val.gtb v (.num mx) = true := by
      simpa using h
    rcases h2 with h2 | h2
    · exact Or.inl ⟨v, hv, h2⟩
    · exact Or.inr ⟨v, hv, h2⟩

lemma overwriteOutside_length (out xi : List Val) (mn mx fv : Val) :
    (overwriteOutside out xi mn mx fv).length = min out.length xi.length := by
  simp [overwriteOutside]

lemma overwriteOutside_getD : ∀ (out xi : List Val) (mn mx fv : Val) (j : ℕ),
    out.length = xi.length → j < out.length →
    (overwriteOutside out xi mn mx fv).getD j .nan
      = if (Val.ltb (xi.getD j .nan) mn || Val.gtb (xi.getD j .nan) mx) = true
        then fv else out.getD j .nan := by
  intro out
  induction out with
  | nil => intro xi mn mx fv j h hj; simp at hj
  | cons o t ih =>
    intro xi mn mx fv j h hj
    cases xi with
    | nil => simp at h
    | cons q s =>
      have hls : t.length = s.length := by simpa using h
      cases j with
      | zero =>
        simp only [overwriteOutside, List.zip_cons_cons, List.map_cons,
          List.getD_cons_zero]
      | succ k =>
        have hk : k < t.length := by simpa using hj
        simp only [overwriteOutside, List.zip_cons_cons, List.map_cons,
          List.getD_cons_succ]
        exact ih s mn mx fv k hls hk

/-- C2: MonotonicFilter.mask (the static method _get_monotonic_mask), on
any non-empty sequence, returns a mask of the same length whose first bit
is true and whose bit i (for i at least 1) is the comparison of the
running maxima of the first i+1 and the first i entries; the subsequence
kept by the mask is strictly increasing; for strictly increasing input the
mask is all-true; for a single-element input it is the single bit true. -/
theorem monotonic_mask_spec (x : List Val) (hx : x ≠ []) :
    (getMonotonicMask x).length = x.length
    ∧ (getMonotonicMask x).headD false = true
    ∧ (∀ i, 1 ≤ i → i < x.length →
        (getMonotonicMask x).getD i false =
          Val.gtb (npMaxL (x.take (i+1))) (npMaxL (x.take i)))
    ∧ strictIncB (applyMask x (getMonotonicMask x)) = true
    ∧ (strictIncB x = true → ((getMonotonicMask x).all fun b => b) = true)
    ∧ (x.length = 1 → getMonotonicMask x = [true]) := by
  cases x with
  | nil => exact absurd rfl hx
  | cons v t =>
    refine ⟨getMonotonicMask_length _, rfl, ?_, filtered_strictInc _,
      (getMonotonicMask_all_iff _).mpr, ?_⟩
    · intro i h1 h2
      cases i with
      | zero => exact absurd h1 (by simp)
      | succ j =>
        have hj : j < t.length := by simpa using h2
        show (maskFrom v t).getD j false = _
        rw [maskFrom_getD t v j hj]
        rfl
    · intro hlen
      cases t with
      | nil => rfl
      | cons w s => simp at hlen

/-- C2 witness: the specification of the mask evaluated at the concrete
input 0, 2, 1 (whose third point falls below the running maximum). -/
theorem monotonic_mask_spec_witness :
    ([Val.num 0, Val.num 2, Val.num 1] : List Val) ≠ []
    ∧ ((getMonotonicMask [Val.num 0, Val.num 2, Val.num 1]).length
        = ([Val.num 0, Val.num 2, Val.num 1] : List Val).length
      ∧ (getMonotonicMask [Val.num 0, Val.num 2, Val.num 1]).headD false = true
      ∧ (∀ i, 1 ≤ i → i < ([Val.num 0, Val.num 2, Val.num 1] : List Val).length →
          (getMonotonicMask [Val.num 0, Val.num 2, Val.num 1]).getD i false =
            Val.gtb (npMaxL (([Val.num 0, Val.num 2, Val.num 1] : List Val).take (i+1)))
              (npMaxL (([Val.num 0, Val.num 2, Val.num 1] : List Val).take i)))
      ∧ strictIncB (applyMask [Val.num 0, Val.num 2, Val.num 1]
          (getMonotonicMask [Val.num 0, Val.num 2, Val.num 1])) = true
      ∧ (strictIncB [Val.num 0, Val.num 2, Val.num 1] = true →
          ((getMonotonicMask [Val.num 0, Val.num 2, Val.num 1]).all fun b => b) = true)
      ∧ (([Val.num 0, Val.num 2, Val.num 1] : List Val).length = 1 →
          getMonotonicMask [Val.num 0, Val.num 2, Val.num 1] = [true])) :=
  ⟨by decide, monotonic_mask_spec [Val.num 0, Val.num 2, Val.num 1] (by decide)⟩

/-- C10: the minimum-length check (at least 2 elements) reads the raw
input before monotonic filtering; on x = [1, 1] with force_monotonic true
the raw input passes that check, the filtered data has a single element,
and construction fails inside the external interpolation primitive (the
modelled scipy constructor), not in any of the library's own length
checks, in both variants. -/
theorem min_length_check_is_raw :
    ([Val.num 1, Val.num 1] : List Val).length = 2
    ∧ (applyMask [Val.num 1, Val.num 1]
        (getMonotonicMask [Val.num 1, Val.num 1])).length = 1
    ∧ interpolationInit .unset ⟨1, [Val.num 1, Val.num 1]⟩
        ⟨1, [Val.num 2, Val.num 3]⟩ .unset (some true) = .error .primitiveError
    ∧ interpolateInit .pchipClass ⟨1, [Val.num 1, Val.num 1]⟩
        ⟨1, [Val.num 2, Val.num 3]⟩ .unset (some true) = .error .primitiveError := by
  decide

/-- C3 (amended): applying the boundary policy is a no-op when
extrapolating, in both variants; for a NaN-free interpolation domain and a
non-empty NaN-free query array, both variants return the kernel output
with exactly the entries whose original query value lies strictly below
the domain minimum or strictly above the domain maximum overwritten by the
fill value, and agree with each other.  The restriction to NaN-free
queries is forced: the class-hierarchy variant guards the overwrite by
the reductions xi.min() and xi.max(), which a NaN query entry turns into
NaN, silencing the whole overwrite. -/
theorem boundary_policy_apply (fv : Val) (x out xi : List Val)
    (hx : x ≠ []) (hxnan : hasNan x = false)
    (hlen : out.length = xi.length) (hxinan : hasNan xi = false) :
    applyFillValueFn true fv x out xi = .ok out
    ∧ (∀ (K : Kernel → Val → Val) (i : InterpM) (vs : List Val),
        i.fill = .extrapolate →
        interpolationCall K i (.arr vs) = .arr (vs.map (K i.kernel)))
    ∧ (xi ≠ [] →
        ∃ res, applyFillValueFn false fv x out xi = .ok res
          ∧ fillOverwriteArr fv x out xi = res
          ∧ res.length = out.length
          ∧ ∀ j, j < out.length →
              res.getD j .nan =
                if (Val.ltb (xi.getD j .nan) (npMinL x)
                    || Val.gtb (xi.getD j .nan) (npMaxL x)) = true
                then fv else out.getD j .nan) := by
  refine ⟨by simp [applyFillValueFn], ?_, ?_⟩
  · intro K i vs hext
    simp [interpolationCall, hext, Fill.isExtrapolate]
  · intro hne
    have hguard := outGuard_eq_any x xi hx hxnan hne hxinan
    have hnotempty : xi.isEmpty = false := by
      cases xi with
      | nil => exact absurd rfl hne
      | cons a t => rfl
    by_cases hg : (Val.ltb (npMinL xi) (npMinL x)
        || Val.gtb (npMaxL xi) (npMaxL x)) = true
    · refine ⟨overwriteOutside out xi (npMinL x) (npMaxL x) fv, ?_, ?_, ?_, ?_⟩
      · simp [applyFillValueFn, hnotempty, hg]
      · rw [fillOverwriteArr, if_pos (hguard ▸ hg)]
      · rw [overwriteOutside_length, hlen, min_self]
      · intro j hj
        exact overwriteOutside_getD out xi _ _ fv j hlen hj
    · refine ⟨out, ?_, ?_, rfl, ?_⟩
      · simp only [applyFillValueFn, Bool.false_eq_true, if_false, hnotempty]
        rw [if_neg hg]
      · rw [fillOverwriteArr, if_neg (hguard ▸ hg)]
      · intro j hj
        have hany : xi.any
            (fun v => Val.ltb v (npMinL x) || Val.gtb v (npMaxL x)) = false := by
          rw [← hguard]
          exact Bool.eq_false_iff.mpr hg
        have hmem : xi.getD j .nan ∈ xi := by
          rw [hlen] at hj
          rw [List.getD_eq_getElem xi .nan hj]
          exact List.getElem_mem hj
        have hpred := (List.any_eq_false.mp hany) _ hmem
        have hcond : (Val.ltb (xi.getD j .nan) (npMinL x)
            || Val.gtb (xi.getD j .nan) (npMaxL x)) = false :=
          Bool.eq_false_iff.mpr hpred
        rw [if_neg (by rw [hcond]; exact Bool.false_ne_true)]

/-- C3 witness: the amended boundary-policy behavior at a concrete domain
0..1, output pair 9, 8 and query pair 5, 1 (the first query entry is
outside the domain and only its output entry becomes the fill value 7). -/
theorem boundary_policy_apply_witness :
    ([Val.num 0, Val.num 1] : List Val) ≠ []
    ∧ hasNan [Val.num 0, Val.num 1] = false
    ∧ ([Val.num 9, Val.num 8] : List Val).length
        = ([Val.num 5, Val.num 1] : List Val).length
    ∧ hasNan [Val.num 5, Val.num 1] = false
    ∧ (applyFillValueFn true (Val.num 7) [Val.num 0, Val.num 1]
          [Val.num 9, Val.num 8] [Val.num 5, Val.num 1]
        = .ok [Val.num 9, Val.num 8]
      ∧ (∀ (K : Kernel → Val → Val) (i : InterpM) (vs : List Val),
          i.fill = .extrapolate →
          interpolationCall K i (.arr vs) = .arr (vs.map (K i.kernel)))
      ∧ (([Val.num 5, Val.num 1] : List Val) ≠ [] →
          ∃ res, applyFillValueFn false (Val.num 7) [Val.num 0, Val.num 1]
              [Val.num 9, Val.num 8] [Val.num 5, Val.num 1] = .ok res
            ∧ fillOverwriteArr (Val.num 7) [Val.num 0, Val.num 1]
                [Val.num 9, Val.num 8] [Val.num 5, Val.num 1] = res
            ∧ res.length = ([Val.num 9, Val.num 8] : List Val).length
            ∧ ∀ j, j < ([Val.num 9, Val.num 8] : List Val).length →
                res.getD j .nan =
                  if (Val.ltb (([Val.num 5, Val.num 1] : List Val).getD j .nan)
                        (npMinL [Val.num 0, Val.num 1])
                      || Val.gtb (([Val.num 5, Val.num 1] : List Val).getD j .nan)
                        (npMaxL [Val.num 0, Val.num 1])) = true
                  then Val.num 7
                  else ([Val.num 9, Val.num 8] : List Val).getD j .nan)) :=
  ⟨by decide, by decide, by decide, by decide,
    boundary_policy_apply (Val.num 7) [Val.num 0, Val.num 1]
      [Val.num 9, Val.num 8] [Val.num 5, Val.num 1]
      (by decide) (by decide) (by decide) (by decide)⟩

/-- C3 counterexample: with the domain 0..1, fill value 7, kernel output
9, 9 and query NaN, 5, the second query entry is strictly above the domain
maximum, so the claim requires its output entry to be overwritten with 7;
the class-hierarchy _apply_fill_value leaves the output unchanged because
the NaN query entry makes its xi.min()/xi.max() guard false. -/
theorem boundary_policy_nan_guard_cex :
    applyFillValueFn false (Val.num 7) [Val.num 0, Val.num 1]
      [Val.num 9, Val.num 9] [Val.nan, Val.num 5] = .ok [Val.num 9, Val.num 9]
    ∧ applyFillValueFn false (Val.num 7) [Val.num 0, Val.num 1]
      [Val.num 9, Val.num 9] [Val.nan, Val.num 5] ≠ .ok [Val.num 9, Val.num 7] := by
  decide

lemma headD_reverse (l : List Val) (d : Val) : l.reverse.headD d = l.getLastD d := by
  rw [List.headD_eq_head?, List.head?_reverse, List.getLastD_eq_getLast?]

lemma getLastD_reverse (l : List Val) (d : Val) :
    l.reverse.getLastD d = l.headD d := by
  have h := List.head?_reverse l.reverse
  rw [List.reverse_reverse] at h
  rw [List.getLastD_eq_getLast?, ← h, List.headD_eq_head?]

lemma cleanXY_reverse (x y : Arr) (f : Bool) (a b : ℚ)
    (hh : x.data.headD .nan = .num a) (hl : x.data.getLastD .nan = .num b)
    (hab : a ≠ b) :
    cleanXY x y f = cleanXY x.rev y.rev f := by
  rcases lt_or_gt_of_ne hab with hlt | hgt
  · have hc1 : Val.gtb (x.data.headD .nan) (x.data.getLastD .nan) = false := by
      rw [hh, hl]
      simp [Val.gtb, Val.ltb, not_lt.mpr hlt.le]
    have hc2 : Val.gtb (x.data.reverse.headD .nan)
        (x.data.reverse.getLastD .nan) = true := by
      rw [headD_reverse, getLastD_reverse, hh, hl]
      simp [Val.gtb, Val.ltb, hlt]
    simp only [cleanXY, Arr.rev]
    rw [hc1, hc2]
    simp [List.reverse_reverse]
  · have hc1 : Val.gtb (x.data.headD .nan) (x.data.getLastD .nan) = true := by
      rw [hh, hl]
      simp [Val.gtb, Val.ltb, hgt]
    have hc2 : Val.gtb (x.data.reverse.headD .nan)
        (x.data.reverse.getLastD .nan) = false := by
      rw [headD_reverse, getLastD_reverse, hh, hl]
      simp [Val.gtb, Val.ltb, not_lt.mpr hgt.le]
    simp only [cleanXY, Arr.rev]
    rw [hc1, hc2]
    simp [List.reverse_reverse]

/-- C6 (amended): when the endpoints of x are distinct (non-NaN) numbers,
constructing from (x, y) and from (reverse x, reverse y) gives the very
same result in both variants (hence identical cleaned arrays and identical
evaluations); when the endpoints are equal the endpoint-based reversal
fires in neither direction and the two constructions can disagree. -/
theorem reversal_construction_amended (v : Variant) (m : MethodArg) (x y : Arr)
    (fv : FillArg) (fm : Option Bool) (a b : ℚ)
    (hh : x.data.headD .nan = .num a) (hl : x.data.getLastD .nan = .num b)
    (hab : a ≠ b) :
    interpolateInit v x y fv fm = interpolateInit v x.rev y.rev fv fm
    ∧ interpolationInit m x y fv fm = interpolationInit m x.rev y.rev fv fm := by
  have hclean : cleanXY x y (fm.getD false)
      = cleanXY ⟨x.ndim, x.data.reverse⟩ ⟨y.ndim, y.data.reverse⟩ (fm.getD false) :=
    cleanXY_reverse x y (fm.getD false) a b hh hl hab
  constructor
  · simp only [interpolateInit, Arr.rev, List.length_reverse, ← hclean]
  · simp only [interpolationInit, Arr.rev, ← hclean]

/-- C6 witness: construction from the strictly increasing pair 0, 1 and
from its reversal coincide in both variants. -/
theorem reversal_construction_witness :
    (⟨1, [Val.num 0, Val.num 1]⟩ : Arr).data.headD .nan = .num 0
    ∧ (⟨1, [Val.num 0, Val.num 1]⟩ : Arr).data.getLastD .nan = .num 1
    ∧ (0 : ℚ) ≠ 1
    ∧ (interpolateInit .pchipClass ⟨1, [Val.num 0, Val.num 1]⟩
          ⟨1, [Val.num 5, Val.num 6]⟩ .unset none
        = interpolateInit .pchipClass (Arr.rev ⟨1, [Val.num 0, Val.num 1]⟩)
          (Arr.rev ⟨1, [Val.num 5, Val.num 6]⟩) .unset none
      ∧ interpolationInit .unset ⟨1, [Val.num 0, Val.num 1]⟩
          ⟨1, [Val.num 5, Val.num 6]⟩ .unset none
        = interpolationInit .unset (Arr.rev ⟨1, [Val.num 0, Val.num 1]⟩)
          (Arr.rev ⟨1, [Val.num 5, Val.num 6]⟩) .unset none) :=
  ⟨by decide, by decide, by decide,
    reversal_construction_amended .pchipClass .unset ⟨1, [Val.num 0, Val.num 1]⟩
      ⟨1, [Val.num 5, Val.num 6]⟩ .unset none 0 1 (by decide) (by decide)
      (by decide)⟩

/-- C6 counterexample: x = [0, 1, 0] has equal endpoints, so neither
orientation is reversed; with force_monotonic the cleaned y arrays of the
two orientations differ ([5, 6] against [7, 6]), refuting the claim that
they are always identical. -/
theorem reversal_palindrome_cex :
    interpolateInit .pchipClass ⟨1, [Val.num 0, Val.num 1, Val.num 0]⟩
      ⟨1, [Val.num 5, Val.num 6, Val.num 7]⟩ .unset (some true)
      = .ok ⟨[Val.num 0, Val.num 1], [Val.num 5, Val.num 6], .val .nan,
          .pchip [Val.num 0, Val.num 1] [Val.num 5, Val.num 6] false⟩
    ∧ interpolateInit .pchipClass (Arr.rev ⟨1, [Val.num 0, Val.num 1, Val.num 0]⟩)
      (Arr.rev ⟨1, [Val.num 5, Val.num 6, Val.num 7]⟩) .unset (some true)
      = .ok ⟨[Val.num 0, Val.num 1], [Val.num 7, Val.num 6], .val .nan,
          .pchip [Val.num 0, Val.num 1] [Val.num 7, Val.num 6] false⟩
    ∧ ([Val.num 5, Val.num 6] : List Val) ≠ [Val.num 7, Val.num 6] := by
  decide

/-- C4 (amended): in the method-string variant the validation order is as
claimed: method name check, then fill-value check, then the sample build
(whose first step is the rank check), then the kernel-specific
minimum-point check on the cleaned data, then kernel build.  In the
class-hierarchy variant the cubic kernel's minimum-point check runs first
of all, on the raw input, before the fill-value and shape checks. -/
theorem validation_order_amended :
    (∀ (x y : Arr) (fv : FillArg) (fm : Option Bool),
      interpolationInit .invalid x y fv fm = .error .invalidMethod)
    ∧ (∀ (m : MethodArg) (x y : Arr) (fm : Option Bool), m ≠ .invalid →
      interpolationInit m x y .otherString fm = .error .invalidFillValue)
    ∧ (∀ (m : MethodArg) (x y : Arr) (fv : FillArg) (fm : Option Bool),
      m ≠ .invalid → fv ≠ .otherString → x.ndim ≠ 1 →
      interpolationInit m x y fv fm = .error .notOneD)
    ∧ (∀ (x y : Arr) (fv : FillArg) (fm : Option Bool) (cx cy : List Val),
      fv ≠ .otherString →
      cleanXY x y (fm.getD false) = .ok (cx, cy) → cx.length ≤ 3 →
      interpolationInit .cubicSpline x y fv fm = .error (.needAtLeast 4))
    ∧ (∀ (x y : Arr) (fv : FillArg) (fm : Option Bool),
      x.data.length < 4 →
      interpolateInit .cubicClass x y fv fm = .error (.needAtLeast 4)) := by
  refine ⟨fun x y fv fm => rfl, ?_, ?_, ?_, ?_⟩
  · intro m x y fm hm
    cases m <;> first | rfl | exact absurd rfl hm
  · intro m x y fv fm hm hfv hx
    cases m <;> cases fv <;>
      simp [interpolationInit, resolveMethod, resolveFill, cleanXY, hx] <;>
      exact absurd rfl (by assumption)
  · intro x y fv fm cx cy hfv hclean hlen
    cases fv with
    | otherString => exact absurd rfl hfv
    | unset =>
      simp only [interpolationInit, resolveMethod, resolveFill, hclean,
        getInterpolator]
      rw [if_pos hlen]
    | num v =>
      simp only [interpolationInit, resolveMethod, resolveFill, hclean,
        getInterpolator]
      rw [if_pos hlen]
    | extrapolate =>
      simp only [interpolationInit, resolveMethod, resolveFill, hclean,
        getInterpolator]
      rw [if_pos hlen]
  · intro x y fv fm h
    simp [interpolateInit, h]

/-- C4 witness: an invalid fill value is reported before any data check in
the method-string variant at a concrete construction. -/
theorem validation_order_witness :
    interpolationInit .pchip ⟨1, [Val.num 0, Val.num 1]⟩
      ⟨1, [Val.num 0, Val.num 1]⟩ .otherString none = .error .invalidFillValue :=
  validation_order_amended.2.1 .pchip ⟨1, [Val.num 0, Val.num 1]⟩
    ⟨1, [Val.num 0, Val.num 1]⟩ none (by decide)

/-- C4 counterexample: CubicSplineInterpolator with a 3-point input and an
invalid fill value reports the kernel-specific minimum-point error, not
the fill-value error the claimed order requires, because its raw-length
pre-check runs before the base constructor. -/
theorem validation_order_cex :
    interpolateInit .cubicClass ⟨1, [Val.num 0, Val.num 1, Val.num 2]⟩
      ⟨1, [Val.num 0, Val.num 1, Val.num 2]⟩ .otherString none
      = .error (.needAtLeast 4)
    ∧ interpolateInit .cubicClass ⟨1, [Val.num 0, Val.num 1, Val.num 2]⟩
      ⟨1, [Val.num 0, Val.num 1, Val.num 2]⟩ .otherString none
      ≠ .error .invalidFillValue := by
  decide

/-- C5: in the method-string variant, constructing with the linear method
and extrapolation enabled always fails inside the spline primitive: the
code hands the natural boundary-condition hint to the degree-1 primitive,
which (per the spec's kernel table and scipy) accepts none.  The
class-hierarchy LinearInterpolator on the same data succeeds and
extrapolates, showing the intended behavior. -/
theorem linear_extrapolate_divergence :
    interpolationInit .linear ⟨1, [Val.num 0, Val.num 1, Val.num 2]⟩
      ⟨1, [Val.num 0, Val.num 2, Val.num 4]⟩ .extrapolate none
      = .error .primitiveError
    ∧ interpolateInit .linearClass ⟨1, [Val.num 0, Val.num 1, Val.num 2]⟩
      ⟨1, [Val.num 0, Val.num 2, Val.num 4]⟩ .extrapolate none
      = .ok ⟨[Val.num 0, Val.num 1, Val.num 2], [Val.num 0, Val.num 2, Val.num 4],
          .extrapolate, .spline [Val.num 0, Val.num 1, Val.num 2]
            [Val.num 0, Val.num 2, Val.num 4] 1 none⟩ := by
  decide

lemma cleanCore_ok (xd yd : List Val) (f : Bool) (cx cy : List Val)
    (hxy : xd.length = yd.length)
    (h : (if (getMonotonicMask xd).all (fun b => b) then
            Except.ok ((xd, yd) : List Val × List Val)
          else if f then
            Except.ok (applyMask xd (getMonotonicMask xd),
              applyMask yd (getMonotonicMask xd))
          else Except.error Err.notMonotonic) = Except.ok (cx, cy)) :
    cx.length = cy.length ∧ strictIncB cx = true ∧ cx.length ≤ xd.length := by
  split at h
  next hall =>
    injection h with h2
    rw [Prod.mk.injEq] at h2
    obtain ⟨rfl, rfl⟩ := h2
    exact ⟨hxy, (getMonotonicMask_all_iff xd).mp hall, le_refl _⟩
  next hall =>
    split at h
    next hf =>
      injection h with h2
      rw [Prod.mk.injEq] at h2
      obtain ⟨rfl, rfl⟩ := h2
      exact ⟨applyMask_length_eq xd yd _ hxy, filtered_strictInc xd,
        applyMask_length_le xd _⟩
    next hf => cases h

lemma cleanXY_ok {x y : Arr} {f : Bool} {cx cy : List Val}
    (h : cleanXY x y f = .ok (cx, cy)) :
    cx.length = cy.length ∧ strictIncB cx = true ∧ cx.length ≤ x.data.length := by
  unfold cleanXY at h
  split at h
  next => cases h
  next hnd =>
    split at h
    next => cases h
    next hlen2 =>
      split at h
      next => cases h
      next hlen3 =>
        have hxy : x.data.length = y.data.length := not_ne_iff.mp hlen2
        by_cases hrev : Val.gtb (x.data.headD .nan) (x.data.getLastD .nan) = true
        · rw [if_pos hrev] at h
          have := cleanCore_ok x.data.reverse y.data.reverse f cx cy
            (by simp [hxy]) h
          simpa using this
        · rw [if_neg hrev] at h
          exact cleanCore_ok x.data y.data f cx cy hxy h

lemma scipyPchip_ok {x y : List Val} {e : Bool} {k : Kernel}
    (h : scipyPchip x y e = .ok k) :
    hasNan x = false ∧ hasNan y = false ∧ 2 ≤ x.length := by
  unfold scipyPchip at h
  split at h
  next => cases h
  next hnan =>
    split at h
    next => cases h
    next hlen =>
      simp only [Bool.or_eq_true, not_or, Bool.not_eq_true] at hnan
      exact ⟨hnan.1, hnan.2, by omega⟩

lemma makeInterpSpline_ok {x y : List Val} {k : ℕ} {bc : Option BC} {ker : Kernel}
    (h : makeInterpSpline x y k bc = .ok ker) :
    hasNan x = false ∧ hasNan y = false ∧ k + 1 ≤ x.length := by
  unfold makeInterpSpline at h
  split at h
  next => cases h
  next =>
    split at h
    next => cases h
    next hnan =>
      split at h
      next => cases h
      next hlen =>
        simp only [Bool.or_eq_true, not_or, Bool.not_eq_true] at hnan
        exact ⟨hnan.1, hnan.2, by omega⟩

lemma createInterpolator_ok {v : Variant} {x y : List Val} {e : Bool} {k : Kernel}
    (h : createInterpolator v x y e = .ok k) :
    hasNan x = false ∧ hasNan y = false ∧ 2 ≤ x.length
    ∧ (v = .cubicClass → 4 ≤ x.length) := by
  cases v with
  | pchipClass =>
    simp only [createInterpolator] at h
    obtain ⟨h1, h2, h3⟩ := scipyPchip_ok h
    exact ⟨h1, h2, h3, fun hv => by cases hv⟩
  | linearClass =>
    simp only [createInterpolator] at h
    obtain ⟨h1, h2, h3⟩ := makeInterpSpline_ok h
    exact ⟨h1, h2, h3, fun hv => by cases hv⟩
  | cubicClass =>
    simp only [createInterpolator] at h
    obtain ⟨h1, h2, h3⟩ := makeInterpSpline_ok h
    exact ⟨h1, h2, by omega, fun _ => h3⟩

lemma getInterpolator_ok {m : Method} {x y : List Val} {e : Bool} {k : Kernel}
    (h : getInterpolator m x y e = .ok k) :
    hasNan x = false ∧ hasNan y = false ∧ 2 ≤ x.length
    ∧ (m = .cubicSpline → 4 ≤ x.length) := by
  cases m with
  | pchip =>
    simp only [getInterpolator] at h
    obtain ⟨h1, h2, h3⟩ := scipyPchip_ok h
    exact ⟨h1, h2, h3, fun hv => by cases hv⟩
  | linear =>
    simp only [getInterpolator] at h
    split at h
    next => cases h
    next =>
      obtain ⟨h1, h2, h3⟩ := makeInterpSpline_ok h
      exact ⟨h1, h2, h3, fun hv => by cases hv⟩
  | cubicSpline =>
    simp only [getInterpolator] at h
    split at h
    next => cases h
    next =>
      obtain ⟨h1, h2, h3⟩ := makeInterpSpline_ok h
      exact ⟨h1, h2, by omega, fun _ => h3⟩

/-- C7: every successfully constructed interpolator, in either variant,
satisfies the data invariants: cleaned x and y have equal length at least
2 (at least 4 for the cubic-spline kernel), the cleaned x is strictly
increasing, and neither cleaned array contains NaN.  The embedded objects
are immutable (every operation is a pure function of the stored state), so
the invariants persist after construction. -/
theorem construction_invariants (v : Variant) (m : MethodArg) (x y : Arr)
    (fv : FillArg) (fm : Option Bool) (i : Interp) (iM : InterpM) :
    (interpolateInit v x y fv fm = .ok i →
      i.x.length = i.y.length ∧ 2 ≤ i.x.length
      ∧ (v = .cubicClass → 4 ≤ i.x.length)
      ∧ strictIncB i.x = true ∧ hasNan i.x = false ∧ hasNan i.y = false)
    ∧ (interpolationInit m x y fv fm = .ok iM →
      iM.x.length = iM.y.length ∧ 2 ≤ iM.x.length
      ∧ (iM.method = .cubicSpline → 4 ≤ iM.x.length)
      ∧ strictIncB iM.x = true ∧ hasNan iM.x = false ∧ hasNan iM.y = false) := by
  constructor
  · intro h
    unfold interpolateInit at h
    split at h
    next => cases h
    next =>
      split at h
      next => cases h
      next fill hfill =>
        split at h
        next => cases h
        next cx cy hclean =>
          split at h
          next => cases h
          next k hk =>
            injection h with h2
            subst h2
            obtain ⟨hlen, hinc, _⟩ := cleanXY_ok hclean
            obtain ⟨hnx, hny, h2le, hcub⟩ := createInterpolator_ok hk
            exact ⟨hlen, h2le, hcub, hinc, hnx, hny⟩
  · intro h
    unfold interpolationInit at h
    split at h
    next => cases h
    next m2 hm2 =>
      split at h
      next => cases h
      next fill hfill =>
        split at h
        next => cases h
        next cx cy hclean =>
          split at h
          next => cases h
          next k hk =>
            injection h with h2
            subst h2
            obtain ⟨hlen, hinc, _⟩ := cleanXY_ok hclean
            obtain ⟨hnx, hny, h2le, hcub⟩ := getInterpolator_ok hk
            exact ⟨hlen, h2le, hcub, hinc, hnx, hny⟩

/-- C7 witness: the invariants at a concrete successful construction of
the PCHIP class on x = [0, 1], y = [5, 6]. -/
theorem construction_invariants_witness :
    ([Val.num 0, Val.num 1] : List Val).length
      = ([Val.num 5, Val.num 6] : List Val).length
    ∧ 2 ≤ ([Val.num 0, Val.num 1] : List Val).length
    ∧ (Variant.pchipClass = .cubicClass →
        4 ≤ ([Val.num 0, Val.num 1] : List Val).length)
    ∧ strictIncB [Val.num 0, Val.num 1] = true
    ∧ hasNan [Val.num 0, Val.num 1] = false
    ∧ hasNan [Val.num 5, Val.num 6] = false :=
  (construction_invariants .pchipClass .unset ⟨1, [Val.num 0, Val.num 1]⟩
    ⟨1, [Val.num 5, Val.num 6]⟩ .unset none
    ⟨[Val.num 0, Val.num 1], [Val.num 5, Val.num 6], .val .nan,
      .pchip [Val.num 0, Val.num 1] [Val.num 5, Val.num 6] false⟩
    ⟨[], [], .pchip, .val .nan, .pchip [] [] false⟩).1 (by decide)

lemma applyFill_ok_shape (e : Bool) (f : Val) (x out xi : List Val)
    (hlen : out.length = xi.length) (hne : xi.isEmpty = true → e = true) :
    ∃ res, applyFillValueFn e f x out xi = .ok res ∧ res.length = out.length := by
  cases e with
  | true => exact ⟨out, by simp [applyFillValueFn], rfl⟩
  | false =>
    have hxine : xi.isEmpty = false := by
      cases hxi : xi.isEmpty with
      | false => rfl
      | true => exact absurd (hne hxi) (by simp)
    simp only [applyFillValueFn, Bool.false_eq_true, if_false, hxine]
    by_cases hg : (Val.ltb (npMinL xi) (npMinL x)
        || Val.gtb (npMaxL xi) (npMaxL x)) = true
    · rw [if_pos hg]
      exact ⟨_, rfl, by rw [overwriteOutside_length, hlen, min_self]⟩
    · rw [if_neg hg]
      exact ⟨out, rfl, rfl⟩

lemma fillOverwriteArr_length (f : Val) (x out xi : List Val)
    (h : out.length = xi.length) :
    (fillOverwriteArr f x out xi).length = out.length := by
  simp only [fillOverwriteArr]
  split
  · rw [overwriteOutside_length, h, min_self]
  · rfl

/-- C8 (amended): the class-hierarchy variant promotes every scalar query
with np.atleast_1d and returns a length-1 array for it, and a same-length
array for a (non-empty, or extrapolating) array query; the method-string
variant performs no promotion: a scalar query produces a scalar-shaped
(0-dimensional) result, and an array query an array of the query's
length. -/
theorem call_shape_amended (K : Kernel → Val → Val) (i : Interp) (iM : InterpM) :
    (∀ v, ∃ w, interpolateCall K i (.scalar v) = .ok (.arr [w]))
    ∧ (∀ vs : List Val, vs ≠ [] ∨ i.fill.isExtrapolate = true →
        ∃ res, interpolateCall K i (.arr vs) = .ok (.arr res)
          ∧ res.length = vs.length)
    ∧ (∀ v, ∃ w, interpolationCall K iM (.scalar v) = .scalar w)
    ∧ (∀ vs : List Val, ∃ res, interpolationCall K iM (.arr vs) = .arr res
        ∧ res.length = vs.length) := by
  refine ⟨?_, ?_, ?_, ?_⟩
  · intro v
    obtain ⟨res, hres, hlen⟩ := applyFill_ok_shape i.fill.isExtrapolate
      i.fill.value i.x ([v].map (K i.kernel)) [v] (by simp)
      (fun hemp => by simp at hemp)
    obtain ⟨w, rfl⟩ := List.length_eq_one.mp (by simpa using hlen)
    simp only [List.map_cons, List.map_nil] at hres
    exact ⟨w, by simp [interpolateCall, atleast1d, hres, Except.map]⟩
  · intro vs hvs
    obtain ⟨res, hres, hlen⟩ := applyFill_ok_shape i.fill.isExtrapolate
      i.fill.value i.x (vs.map (K i.kernel)) vs (by simp)
      (fun hemp => by
        rcases hvs with hvs | hvs
        · exact absurd (List.isEmpty_iff.mp hemp) hvs
        · exact hvs)
    exact ⟨res, by simp [interpolateCall, atleast1d, hres, Except.map],
      by simpa using hlen⟩
  · intro v
    by_cases h1 : iM.fill.isExtrapolate = true
    · exact ⟨K iM.kernel v, by simp [interpolationCall, h1]⟩
    · by_cases h2 : (Val.ltb v (npMinL iM.x) || Val.gtb v (npMaxL iM.x)) = true
      · exact ⟨iM.fill.value, by simp [interpolationCall, h1, h2]⟩
      · exact ⟨K iM.kernel v, by simp [interpolationCall, h1, h2]⟩
  · intro vs
    by_cases h1 : iM.fill.isExtrapolate = true
    · exact ⟨vs.map (K iM.kernel), by simp [interpolationCall, h1], by simp⟩
    · refine ⟨fillOverwriteArr iM.fill.value iM.x (vs.map (K iM.kernel)) vs,
        by simp [interpolationCall, h1], ?_⟩
      rw [fillOverwriteArr_length _ _ _ _ (by simp)]
      simp

/-- C8 witness: a concrete array query of length 2 on a concrete PCHIP
interpolator of the class-hierarchy variant produces a length-2 array. -/
theorem call_shape_witness :
    ∃ res, interpolateCall constZeroEval
        ⟨[Val.num 0, Val.num 1], [Val.num 0, Val.num 1], .val .nan,
          .pchip [Val.num 0, Val.num 1] [Val.num 0, Val.num 1] false⟩
        (.arr [Val.num 0, Val.num 2]) = .ok (.arr res)
      ∧ res.length = ([Val.num 0, Val.num 2] : List Val).length :=
  (call_shape_amended constZeroEval
    ⟨[Val.num 0, Val.num 1], [Val.num 0, Val.num 1], .val .nan,
      .pchip [Val.num 0, Val.num 1] [Val.num 0, Val.num 1] false⟩
    ⟨[], [], .pchip, .val .nan, .pchip [] [] false⟩).2.1
    [Val.num 0, Val.num 2] (Or.inl (by decide))

/-- C8 counterexample: on a concretely constructed method-string
interpolator, a scalar query returns a scalar-shaped (0-dimensional)
result, not the length-1 array the claim requires; the variant never
promotes the scalar. -/
theorem scalar_query_shape_cex :
    interpolationInit .unset ⟨1, [Val.num 0, Val.num 1]⟩
      ⟨1, [Val.num 0, Val.num 1]⟩ .unset none
      = .ok ⟨[Val.num 0, Val.num 1], [Val.num 0, Val.num 1], .pchip, .val .nan,
          .pchip [Val.num 0, Val.num 1] [Val.num 0, Val.num 1] false⟩
    ∧ interpolationCall constZeroEval
        ⟨[Val.num 0, Val.num 1], [Val.num 0, Val.num 1], .pchip, .val .nan,
          .pchip [Val.num 0, Val.num 1] [Val.num 0, Val.num 1] false⟩
        (.scalar (Val.num 0)) = .scalar (Val.num 0)
    ∧ (Out.scalar (Val.num 0)).isArr = false := by
  decide

lemma heapRead_append (h : Heap) (v : List Val) (i : ℕ) (hi : i < h.length) :
    Heap.read (h ++ [v]) i = Heap.read h i := by
  unfold Heap.read
  rw [List.getD_eq_getElem?_getD, List.getD_eq_getElem?_getD,
    List.getElem?_append_left hi]

lemma heapRead_set_ne (h : Heap) (j : ℕ) (v : List Val) (i : ℕ) (hij : j ≠ i) :
    Heap.read (Heap.write h j v) i = Heap.read h i := by
  unfold Heap.read Heap.write
  rw [List.getD_eq_getElem?_getD, List.getD_eq_getElem?_getD,
    List.getElem?_set_ne hij]

lemma heapCleanXY_frame (h : Heap) (x y : Ref) (f : Bool) (i : ℕ)
    (hi : i < h.length) :
    Heap.read (heapCleanXY h x y f).2 i = Heap.read h i := by
  have hi1 : i < (h ++ [Heap.read h x.id]).length := by simp; omega
  have e2 : Heap.read ((h ++ [Heap.read h x.id])
      ++ [Heap.read (h ++ [Heap.read h x.id]) y.id]) i = Heap.read h i := by
    rw [heapRead_append _ _ _ hi1, heapRead_append _ _ _ hi]
  have hxid : h.length ≠ i := by omega
  have hyid : (h ++ [Heap.read h x.id]).length ≠ i := by simp; omega
  simp only [heapCleanXY, Heap.alloc]
  split
  · exact e2
  · split
    · exact e2
    · split
      · exact e2
      · split
        · -- reversal branch: two writes to the fresh cells
          have e3 : ∀ w1 w2, Heap.read
              (Heap.write (Heap.write ((h ++ [Heap.read h x.id])
                ++ [Heap.read (h ++ [Heap.read h x.id]) y.id]) h.length w1)
                (h ++ [Heap.read h x.id]).length w2) i = Heap.read h i := by
            intro w1 w2
            rw [heapRead_set_ne _ _ _ _ hyid, heapRead_set_ne _ _ _ _ hxid, e2]
          split
          · exact e3 _ _
          · split
            · -- filtering allocates two more fresh cells
              rw [heapRead_append, heapRead_append]
              · exact e3 _ _
              · simp [Heap.write]; omega
              · simp [Heap.write]; omega
            · exact e3 _ _
        · split
          · exact e2
          · split
            · rw [heapRead_append, heapRead_append]
              · exact e2
              · simp; omega
              · simp; omega
            · exact e2

lemma heapInterpolateInit_frame (v : Variant) (h : Heap) (x y : Ref)
    (fv : FillArg) (fm : Option Bool) (i : ℕ) (hi : i < h.length) :
    Heap.read (heapInterpolateInit v h x y fv fm).2 i = Heap.read h i := by
  simp only [heapInterpolateInit]
  split
  · rfl
  · split
    · rfl
    · split
      next e h2 heq =>
        have : h2 = (heapCleanXY h x y (fm.getD false)).2 :=
          (congrArg Prod.snd heq).symm
        rw [this]
        exact heapCleanXY_frame h x y _ i hi
      next cxid cyid h2 heq =>
        have h2eq : h2 = (heapCleanXY h x y (fm.getD false)).2 :=
          (congrArg Prod.snd heq).symm
        split
        · rw [h2eq]; exact heapCleanXY_frame h x y _ i hi
        · rw [h2eq]; exact heapCleanXY_frame h x y _ i hi

lemma heapInterpolationInit_frame (m : MethodArg) (h : Heap) (x y : Ref)
    (fv : FillArg) (fm : Option Bool) (i : ℕ) (hi : i < h.length) :
    Heap.read (heapInterpolationInit m h x y fv fm).2 i = Heap.read h i := by
  simp only [heapInterpolationInit]
  split
  · rfl
  · split
    · rfl
    · split
      next e h2 heq =>
        have : h2 = (heapCleanXY h x y (fm.getD false)).2 :=
          (congrArg Prod.snd heq).symm
        rw [this]
        exact heapCleanXY_frame h x y _ i hi
      next cxid cyid h2 heq =>
        have h2eq : h2 = (heapCleanXY h x y (fm.getD false)).2 :=
          (congrArg Prod.snd heq).symm
        split
        · rw [h2eq]; exact heapCleanXY_frame h x y _ i hi
        · rw [h2eq]; exact heapCleanXY_frame h x y _ i hi

/-- C9: construction never mutates the caller-owned buffers.  In the
store-level rendering of both constructors, the inputs are copied to fresh
buffers first, the in-place endpoint reversal writes only to the copies,
and the monotonic filtering allocates further fresh buffers, so after
construction (successful or failed) every buffer the caller owned holds
its original contents. -/
theorem construction_no_mutation (v : Variant) (m : MethodArg) (h : Heap)
    (x y : Ref) (fv : FillArg) (fm : Option Bool)
    (hx : x.id < h.length) (hy : y.id < h.length) :
    (Heap.read (heapInterpolateInit v h x y fv fm).2 x.id = Heap.read h x.id
      ∧ Heap.read (heapInterpolateInit v h x y fv fm).2 y.id = Heap.read h y.id)
    ∧ (Heap.read (heapInterpolationInit m h x y fv fm).2 x.id = Heap.read h x.id
      ∧ Heap.read (heapInterpolationInit m h x y fv fm).2 y.id
          = Heap.read h y.id) :=
  ⟨⟨heapInterpolateInit_frame v h x y fv fm x.id hx,
    heapInterpolateInit_frame v h x y fv fm y.id hy⟩,
   ⟨heapInterpolationInit_frame m h x y fv fm x.id hx,
    heapInterpolationInit_frame m h x y fv fm y.id hy⟩⟩

/-- C9 witness: a concrete store with two caller buffers, one of them
reversed and filtered during construction, is unchanged at both caller
buffers after construction in both variants. -/
theorem construction_no_mutation_witness :
    (Heap.read (heapInterpolateInit .pchipClass
        [[Val.num 1, Val.num 0], [Val.num 5, Val.num 6]]
        ⟨1, 0⟩ ⟨1, 1⟩ .unset none).2 0
      = Heap.read [[Val.num 1, Val.num 0], [Val.num 5, Val.num 6]] 0
      ∧ Heap.read (heapInterpolateInit .pchipClass
        [[Val.num 1, Val.num 0], [Val.num 5, Val.num 6]]
        ⟨1, 0⟩ ⟨1, 1⟩ .unset none).2 1
      = Heap.read [[Val.num 1, Val.num 0], [Val.num 5, Val.num 6]] 1)
    ∧ (Heap.read (heapInterpolationInit .unset
        [[Val.num 1, Val.num 0], [Val.num 5, Val.num 6]]
        ⟨1, 0⟩ ⟨1, 1⟩ .unset none).2 0
      = Heap.read [[Val.num 1, Val.num 0], [Val.num 5, Val.num 6]] 0
      ∧ Heap.read (heapInterpolationInit .unset
        [[Val.num 1, Val.num 0], [Val.num 5, Val.num 6]]
        ⟨1, 0⟩ ⟨1, 1⟩ .unset none).2 1
      = Heap.read [[Val.num 1, Val.num 0], [Val.num 5, Val.num 6]] 1) :=
  construction_no_mutation .pchipClass .unset
    [[Val.num 1, Val.num 0], [Val.num 5, Val.num 6]] ⟨1, 0⟩ ⟨1, 1⟩ .unset none
    (by decide) (by decide)

lemma kernelStep_agree (v : Variant) (cx cy : List Val) (ext : Bool)
    (hne : ¬(v = .linearClass ∧ ext = true)) :
    exceptIsOk (createInterpolator v cx cy ext)
      = exceptIsOk (getInterpolator v.toMethod cx cy ext)
    ∧ ∀ k k', createInterpolator v cx cy ext = .ok k →
        getInterpolator v.toMethod cx cy ext = .ok k' → k = k' := by
  cases v with
  | pchipClass =>
    refine ⟨rfl, fun k k' h1 h2 => ?_⟩
    simp only [createInterpolator] at h1
    simp only [getInterpolator, Variant.toMethod] at h2
    rw [h1] at h2
    injection h2
  | linearClass =>
    have hext : ext = false := by
      cases ext with
      | false => rfl
      | true => exact absurd ⟨rfl, rfl⟩ hne
    subst hext
    simp only [createInterpolator, getInterpolator, Variant.toMethod,
      Bool.false_eq_true, if_false]
    by_cases hlen : cx.length ≤ 1
    · rw [if_pos hlen]
      constructor
      · unfold makeInterpSpline
        by_cases hnan : (hasNan cx || hasNan cy) = true
        · simp [hnan, exceptIsOk]
        · have hl2 : cx.length < 1 + 1 := by omega
          simp [hnan, hl2, exceptIsOk]
      · intro k k' h1 h2
        cases h2
    · rw [if_neg hlen]
      refine ⟨rfl, fun k k' h1 h2 => ?_⟩
      rw [h1] at h2
      injection h2
  | cubicClass =>
    simp only [createInterpolator, getInterpolator, Variant.toMethod]
    by_cases hlen : cx.length ≤ 3
    · rw [if_pos hlen]
      constructor
      · unfold makeInterpSpline
        by_cases hnan : (hasNan cx || hasNan cy) = true
        · simp [hnan, exceptIsOk]
        · have hl4 : cx.length < 3 + 1 := by omega
          simp [hnan, hl4, exceptIsOk]
      · intro k k' h1 h2
        cases h2
    · rw [if_neg hlen]
      refine ⟨rfl, fun k k' h1 h2 => ?_⟩
      rw [h1] at h2
      injection h2

lemma eval_agree (K : Kernel → Val → Val) (i : Interp) (iM : InterpM)
    (hx : i.x = iM.x) (hf : i.fill = iM.fill) (hk : i.kernel = iM.kernel)
    (hxne : i.x ≠ []) (hxnan : hasNan i.x = false)
    (vs : List Val) (hvs : vs ≠ []) (hvnan : hasNan vs = false) :
    interpolateCall K i (.arr vs) = .ok (interpolationCall K iM (.arr vs)) := by
  unfold interpolateCall interpolationCall atleast1d
  rw [← hx, ← hf, ← hk]
  have hne' : vs.isEmpty = false := by
    cases vs with
    | nil => exact absurd rfl hvs
    | cons a t => rfl
  have hguard := outGuard_eq_any i.x vs hxne hxnan hvs hvnan
  by_cases he : i.fill.isExtrapolate = true
  · simp [applyFillValueFn, he, Except.map]
  · have he' : i.fill.isExtrapolate = false := Bool.eq_false_iff.mpr he
    simp only [applyFillValueFn, fillOverwriteArr, he', Bool.false_eq_true,
      if_false, hne']
    by_cases hg : (Val.ltb (npMinL vs) (npMinL i.x)
        || Val.gtb (npMaxL vs) (npMaxL i.x)) = true
    · rw [if_pos hg, if_pos (hguard ▸ hg)]
      rfl
    · rw [if_neg hg, if_neg (hguard ▸ hg)]
      rfl

/-- C1 (amended): outside the one diverging configuration (the linear
kernel with extrapolation enabled, where the class-hierarchy variant
succeeds but the method-string variant fails in the spline primitive), the
two variants agree: construction either fails in both or succeeds in both
with identical cleaned x and y, fill value and kernel, and the evaluations
agree on every non-empty NaN-free array query.  (On NaN-containing and
scalar queries the two call paths differ; those divergences are recorded
with the boundary-policy and shape claims.) -/
theorem variants_agree_amended (v : Variant) (x y : Arr) (fv : FillArg)
    (fm : Option Bool) (hne : ¬(v = .linearClass ∧ fv = .extrapolate)) :
    exceptIsOk (interpolateInit v x y fv fm)
      = exceptIsOk (interpolationInit v.toMethodArg x y fv fm)
    ∧ (∀ i iM, interpolateInit v x y fv fm = .ok i →
        interpolationInit v.toMethodArg x y fv fm = .ok iM →
        i.x = iM.x ∧ i.y = iM.y ∧ i.fill = iM.fill ∧ i.kernel = iM.kernel
        ∧ ∀ (K : Kernel → Val → Val) (vs : List Val), vs ≠ [] →
            hasNan vs = false →
            interpolateCall K i (.arr vs)
              = .ok (interpolationCall K iM (.arr vs))) := by
  have hm : resolveMethod v.toMethodArg = .ok v.toMethod := by
    cases v <;> rfl
  by_cases hpre : v = .cubicClass ∧ x.data.length < 4
  · obtain ⟨hv, hlen4⟩ := hpre
    subst hv
    have hAerr : interpolateInit .cubicClass x y fv fm
        = .error (.needAtLeast 4) := by
      rw [interpolateInit, if_pos (And.intro rfl hlen4)]
    have hBerr : exceptIsOk (interpolationInit
        Variant.cubicClass.toMethodArg x y fv fm) = false := by
      rw [interpolationInit, hm]
      cases hfv : resolveFill fv with
      | error e => rfl
      | ok fill =>
        cases hclean : cleanXY x y (fm.getD false) with
        | error e => rfl
        | ok p =>
          obtain ⟨cx, cy⟩ := p
          obtain ⟨_, _, hle⟩ := cleanXY_ok hclean
          have hB : getInterpolator Variant.cubicClass.toMethod cx cy
              fill.isExtrapolate = .error (.needAtLeast 4) := by
            simp only [Variant.toMethod, getInterpolator]
            rw [if_pos (by omega : cx.length ≤ 3)]
          show exceptIsOk (match getInterpolator Variant.cubicClass.toMethod
              cx cy fill.isExtrapolate with
            | .error e => (.error e : Except Err InterpM)
            | .ok k => .ok ⟨cx, cy, Variant.cubicClass.toMethod, fill, k⟩) = false
          rw [hB]
          rfl
    constructor
    · rw [hAerr]
      exact hBerr.symm
    · intro i iM hA hB
      rw [hAerr] at hA
      cases hA
  · have hext : ∀ fill, resolveFill fv = .ok fill → v = .linearClass →
        fill.isExtrapolate = false := by
      intro fill hfv hv
      subst hv
      cases fv with
      | extrapolate => exact absurd ⟨rfl, rfl⟩ hne
      | unset =>
        injection hfv with h2
        rw [← h2]
        rfl
      | num w =>
        injection hfv with h2
        rw [← h2]
        rfl
      | otherString => cases hfv
    cases hfv : resolveFill fv with
    | error e =>
      have hAred : interpolateInit v x y fv fm = .error e := by
        rw [interpolateInit, if_neg hpre, hfv]
      have hBred : interpolationInit v.toMethodArg x y fv fm = .error e := by
        rw [interpolationInit, hm, hfv]
      rw [hAred, hBred]
      exact ⟨rfl, fun i iM hA hB => by cases hA⟩
    | ok fill =>
      cases hclean : cleanXY x y (fm.getD false) with
      | error e =>
        have hAred : interpolateInit v x y fv fm = .error e := by
          rw [interpolateInit, if_neg hpre, hfv, hclean]
        have hBred : interpolationInit v.toMethodArg x y fv fm = .error e := by
          rw [interpolationInit, hm, hfv, hclean]
        rw [hAred, hBred]
        exact ⟨rfl, fun i iM hA hB => by cases hA⟩
      | ok p =>
        obtain ⟨cx, cy⟩ := p
        have hAred : interpolateInit v x y fv fm
            = match createInterpolator v cx cy fill.isExtrapolate with
              | .error e => .error e
              | .ok k => .ok ⟨cx, cy, fill, k⟩ := by
          rw [interpolateInit, if_neg hpre, hfv, hclean]
        have hBred : interpolationInit v.toMethodArg x y fv fm
            = match getInterpolator v.toMethod cx cy fill.isExtrapolate with
              | .error e => .error e
              | .ok k => .ok ⟨cx, cy, v.toMethod, fill, k⟩ := by
          rw [interpolationInit, hm, hfv, hclean]
        have hker := kernelStep_agree v cx cy fill.isExtrapolate (by
          rintro ⟨hv, hextr⟩
          rw [hext fill hfv hv] at hextr
          cases hextr)
        rw [hAred, hBred]
        cases hA2 : createInterpolator v cx cy fill.isExtrapolate with
        | error e =>
          cases hB2 : getInterpolator v.toMethod cx cy fill.isExtrapolate with
          | error e2 => exact ⟨rfl, fun i iM hA hB => by cases hA⟩
          | ok k2 =>
            rw [hA2, hB2] at hker
            exact absurd hker.1 (by simp [exceptIsOk])
        | ok k =>
          cases hB2 : getInterpolator v.toMethod cx cy fill.isExtrapolate with
          | error e2 =>
            rw [hA2, hB2] at hker
            exact absurd hker.1 (by simp [exceptIsOk])
          | ok k2 =>
            have hkk : k = k2 := hker.2 k k2 hA2 hB2
            subst hkk
            refine ⟨rfl, fun i iM hA hB => ?_⟩
            injection hA with hA3
            injection hB with hB3
            subst hA3
            subst hB3
            refine ⟨rfl, rfl, rfl, rfl, ?_⟩
            intro K vs hvs hvnan
            obtain ⟨hnx, _, h2le, _⟩ := createInterpolator_ok hA2
            refine eval_agree K _ _ rfl rfl rfl ?_ hnx vs hvs hvnan
            intro hnil
            have hnil2 : cx = [] := hnil
            rw [hnil2] at h2le
            simp at h2le

/-- C1 witness: the agreement instantiated for the PCHIP configuration on
x = [0, 1], y = [3, 4] with the default fill value. -/
theorem variants_agree_witness :
    ¬(Variant.pchipClass = .linearClass ∧ FillArg.unset = FillArg.extrapolate)
    ∧ (exceptIsOk (interpolateInit .pchipClass ⟨1, [Val.num 0, Val.num 1]⟩
          ⟨1, [Val.num 3, Val.num 4]⟩ .unset none)
        = exceptIsOk (interpolationInit Variant.pchipClass.toMethodArg
          ⟨1, [Val.num 0, Val.num 1]⟩ ⟨1, [Val.num 3, Val.num 4]⟩ .unset none)
      ∧ (∀ i iM, interpolateInit .pchipClass ⟨1, [Val.num 0, Val.num 1]⟩
            ⟨1, [Val.num 3, Val.num 4]⟩ .unset none = .ok i →
          interpolationInit Variant.pchipClass.toMethodArg
            ⟨1, [Val.num 0, Val.num 1]⟩ ⟨1, [Val.num 3, Val.num 4]⟩
            .unset none = .ok iM →
          i.x = iM.x ∧ i.y = iM.y ∧ i.fill = iM.fill ∧ i.kernel = iM.kernel
          ∧ ∀ (K : Kernel → Val → Val) (vs : List Val), vs ≠ [] →
              hasNan vs = false →
              interpolateCall K i (.arr vs)
                = .ok (interpolationCall K iM (.arr vs)))) :=
  ⟨by decide, variants_agree_amended .pchipClass ⟨1, [Val.num 0, Val.num 1]⟩
    ⟨1, [Val.num 3, Val.num 4]⟩ .unset none (by decide)⟩

/-- C1 counterexample: for the linear kernel with extrapolation on
x = y = [0, 1], the class-hierarchy variant constructs successfully while
the method-string variant fails (its spline call passes the natural
boundary hint with degree 1), so the two variants do not implement the
same contract. -/
theorem variants_linear_extrapolate_cex :
    interpolateInit .linearClass ⟨1, [Val.num 0, Val.num 1]⟩
      ⟨1, [Val.num 0, Val.num 1]⟩ .extrapolate none
      = .ok ⟨[Val.num 0, Val.num 1], [Val.num 0, Val.num 1], .extrapolate,
          .spline [Val.num 0, Val.num 1] [Val.num 0, Val.num 1] 1 none⟩
    ∧ interpolationInit .linear ⟨1, [Val.num 0, Val.num 1]⟩
      ⟨1, [Val.num 0, Val.num 1]⟩ .extrapolate none = .error .primitiveError
    ∧ exceptIsOk (interpolateInit .linearClass ⟨1, [Val.num 0, Val.num 1]⟩
        ⟨1, [Val.num 0, Val.num 1]⟩ .extrapolate none) = true
    ∧ exceptIsOk (interpolationInit .linear ⟨1, [Val.num 0, Val.num 1]⟩
        ⟨1, [Val.num 0, Val.num 1]⟩ .extrapolate none) = false := by
  decide

end IWUtil
